import Mathlib

/-!
Formal model of the SOM (self-organizing map) engine implemented in
src/main.py of the Neural-Net-N3 repository.

Modelling conventions:
* numpy float arrays are modelled over the real numbers; the grid of
  weight vectors (shape (H, W, D)) is a function of three indices.
* feature vectors are lists of reals, so that their length (the numpy
  shape) is part of the model; numpy broadcasting of a (H, W, D) array
  against a length-L vector succeeds exactly when L = D, or D = 1, or
  L = 1, and the broadcast axis has length D when D is not 1, else L.
* a numpy exception (ValueError / IndexError) is modelled by returning
  none; a function that raises performs no write, so the caller keeps
  the unchanged pre-state.
* the one place where IEEE semantics differ from real arithmetic
  (division by zero when radius = 0 inside np.exp) gets a dedicated
  refinement, influenceIEEE below, where none models a NaN.
-/

/-- The SOM class of src/main.py.  The constructor stores input_dim (D),
map_size = (H, W), learning_rate, radius, and a randomly initialized
(H, W, D) weight array; the random initial values are modelled by an
arbitrary weights function. -/
structure SOM where
  H : ℕ
  W : ℕ
  D : ℕ
  learning_rate : ℝ
  radius : ℝ
  weights : ℕ → ℕ → ℕ → ℝ

/-- numpy broadcast compatibility of the last axis (length D) of the
weight array with a 1-d vector of length L: the axes must agree or one
of them must have length 1. -/
def compatLen (D L : ℕ) : Prop := D = L ∨ D = 1 ∨ L = 1

instance (D L : ℕ) : Decidable (compatLen D L) :=
  inferInstanceAs (Decidable (_ ∨ _ ∨ _))

/-- Length of the axis obtained by broadcasting an axis of length D
against an axis of length L (assuming compatLen D L). -/
def bLen (D L : ℕ) : ℕ := if D = 1 then L else D

/-- Index into an axis of length n when it is broadcast to a longer
axis: a length-1 axis is read at position 0, otherwise at position k. -/
def bIdx (n k : ℕ) : ℕ := if n = 1 then 0 else k

/-- Euclidean distance between the weight vector of grid cell (i, j)
and the input vector v, after numpy broadcasting, as computed by
np.linalg.norm(self.weights - input_vector, axis=2) in _find_winner. -/
noncomputable def cellDist (s : SOM) (v : List ℝ) (i j : ℕ) : ℝ :=
  Real.sqrt (∑ k in Finset.range (bLen s.D v.length),
    (s.weights i j (bIdx s.D k) - v.getD (bIdx v.length k) 0) ^ 2)

open Classical in
/-- First index attaining the minimum of f over 0, 1, ..., n-1,
scanning upward and switching only on a strict improvement; this is
the tie-break behaviour of numpy argmin over the flattened (row-major)
distance array. -/
noncomputable def argminUpTo (f : ℕ → ℝ) : ℕ → ℕ
  | 0 => 0
  | n + 1 => if f n < f (argminUpTo f n) then n else argminUpTo f n

/-- SOM._find_winner: distances = np.linalg.norm(weights - v, axis=2);
np.unravel_index(distances.argmin(), distances.shape).  The flat index
t of the (H, W) row-major distance array unravels to (t / W, t % W).
Broadcasting raises when the vector length is incompatible with D, and
argmin raises on an empty array; both are modelled as none.  The
method only reads self.weights, so it is a pure function of the state. -/
noncomputable def find_winner (s : SOM) (v : List ℝ) : Option (ℕ × ℕ) :=
  if compatLen s.D v.length ∧ 0 < s.H ∧ 0 < s.W then
    let t := argminUpTo (fun u => cellDist s v (u / s.W) (u % s.W)) (s.H * s.W)
    some (t / s.W, t % s.W)
  else none

/-- The dist_to_winner array of SOM._update_weights.  In the source,
x = np.arange(H), y = np.arange(W) and dist_x, dist_y = np.meshgrid(x, y)
with the default indexing, which produces arrays of shape (W, H) with
dist_x[k, l] = l and dist_y[k, l] = k.  Hence the entry of
np.sqrt((dist_x - wc[0])**2 + (dist_y - wc[1])**2) at position (k, l)
is sqrt((l - wc.1)^2 + (k - wc.2)^2). -/
noncomputable def dist_to_winner (wc : ℕ × ℕ) (k l : ℕ) : ℝ :=
  Real.sqrt (((l : ℝ) - (wc.1 : ℝ)) ^ 2 + ((k : ℝ) - (wc.2 : ℝ)) ^ 2)

/-- The influence array of SOM._update_weights, at position (k, l):
np.exp(-dist_to_winner / (2 * radius ** 2)) multiplied by the mask
(dist_to_winner <= radius).  This real-valued transcription agrees
with numpy whenever radius is nonzero; the radius = 0 case, where
numpy divides by zero, is covered by influenceIEEE below. -/
noncomputable def influence (r : ℝ) (wc : ℕ × ℕ) (k l : ℕ) : ℝ :=
  Real.exp (-dist_to_winner wc k l / (2 * r ^ 2)) *
    (if dist_to_winner wc k l ≤ r then 1 else 0)

/-- SOM._update_weights.  delta = input_vector - self.weights is a
broadcast of a length-L vector against the (H, W, D) weight array, and
raises when the lengths are incompatible.  The loop
for i in range(D): weights[:, :, i] += lr * influence * delta[:, :, i]
combines the (H, W)-shaped weight slice with the (W, H)-shaped
influence array: the in-place addition raises unless H = W (and the
slice delta[:, :, i] raises when the broadcast axis is shorter than D,
which happens exactly when D = 1 and L = 0).  When D = 0 the loop body
never runs, so nothing is checked and nothing changes.  On success the
influence entry multiplied into weight cell (i, j) is the (k, l) =
(i, j) entry of the (W, H) array, i.e. influence s.radius wc i j.
numpy raises these shape errors before writing anything, so a raising
call leaves the grid unchanged; the model returns none. -/
noncomputable def update_weights (s : SOM) (v : List ℝ) (wc : ℕ × ℕ) : Option SOM :=
  if compatLen s.D v.length ∧ (s.D = 0 ∨ (s.H = s.W ∧ (s.D = 1 → 1 ≤ v.length))) then
    some { s with weights := fun i j k =>
      if k < s.D then
        (s.weights i j k + s.learning_rate * influence s.radius wc i j *
          (v.getD (bIdx v.length k) 0 - s.weights i j k))
      else s.weights i j k }
  else none

/-- IEEE-faithful refinement of the expression
np.exp(-dist_to_winner / (2 * radius ** 2)) at one position (k, l);
none models a NaN.  When the denominator 2 * r^2 is zero, numpy
evaluates (-0.0)/0.0 to NaN (so exp gives NaN) at a cell with
dist_to_winner = 0, and (-d)/0.0 to -infinity (so exp gives 0.0) at a
cell with dist_to_winner > 0. -/
noncomputable def influenceIEEE (r : ℝ) (wc : ℕ × ℕ) (k l : ℕ) : Option ℝ :=
  if 2 * r ^ 2 = 0 then
    if dist_to_winner wc k l = 0 then none else some 0
  else
    some (Real.exp (-dist_to_winner wc k l / (2 * r ^ 2)))

/-- IEEE-faithful value of influence * mask at position (k, l):
a NaN times the 0/1 mask stays NaN. -/
noncomputable def influenceMaskedIEEE (r : ℝ) (wc : ℕ × ℕ) (k l : ℕ) : Option ℝ :=
  (influenceIEEE r wc k l).map fun e =>
    e * (if dist_to_winner wc k l ≤ r then 1 else 0)

/-- IEEE-faithful value of weight component (i, j, k) after
weights[:, :, k] += lr * influence * delta[:, :, k]; a NaN influence
makes the stored component NaN (none), since lr * NaN * delta = NaN
and w + NaN = NaN. -/
noncomputable def updatedWeightIEEE (s : SOM) (v : List ℝ) (wc : ℕ × ℕ) (i j k : ℕ) : Option ℝ :=
  (influenceMaskedIEEE s.radius wc i j).map fun e =>
    s.weights i j k + s.learning_rate * e * (v.getD (bIdx v.length k) 0 - s.weights i j k)

/-- One iteration of the inner loop of SOM.train: winner lookup
followed by the weight update; an exception in either step aborts. -/
noncomputable def trainStep (s : SOM) (v : List ℝ) : Option SOM :=
  (find_winner s v).bind fun wc => update_weights s v wc

/-- The inner loop of SOM.train over one epoch: process the data
vectors in order, threading the mutated state. -/
noncomputable def trainPass : SOM → List (List ℝ) → Option SOM
  | s, [] => some s
  | s, v :: rest => (trainStep s v).bind fun s1 => trainPass s1 rest

/-- The two assignments at the top of an epoch of SOM.train:
self.learning_rate = initial_lr * (1 - epoch / float(epochs)) and
self.radius = initial_radius * (1 - epoch / float(epochs)). -/
noncomputable def setEpochParams (lr0 r0 : ℝ) (epochs epoch : ℕ) (s : SOM) : SOM :=
  { s with
    learning_rate := lr0 * (1 - (epoch : ℝ) / (epochs : ℝ)),
    radius := r0 * (1 - (epoch : ℝ) / (epochs : ℝ)) }

/-- Fold of the epoch loop of SOM.train over a list of epoch indices,
starting from an accumulated state; lr0 and r0 are the values of
initial_lr and initial_radius captured before the loop. -/
noncomputable def trainFoldFrom (lr0 r0 : ℝ) (data : List (List ℝ)) (epochs : ℕ)
    (l : List ℕ) (acc : Option SOM) : Option SOM :=
  l.foldl (fun acc epoch => acc.bind fun cur =>
    trainPass (setEpochParams lr0 r0 epochs epoch cur) data) acc

/-- SOM.train: capture initial_lr and initial_radius, then for epoch
in range(epochs), set the decayed parameters and run one pass over the
data. -/
noncomputable def train (s : SOM) (data : List (List ℝ)) (epochs : ℕ) : Option SOM :=
  trainFoldFrom s.learning_rate s.radius data epochs (List.range epochs) (some s)

/-! Properties of the first-argmin fold. -/

lemma argminUpTo_lt (f : ℕ → ℝ) : ∀ n, 0 < n → argminUpTo f n < n := by
  intro n hn
  induction n with
  | zero => exact absurd hn (lt_irrefl 0)
  | succ m ih =>
    rw [argminUpTo]
    split
    · exact Nat.lt_succ_self m
    · rcases Nat.eq_zero_or_pos m with hm | hm
      · subst hm
        rw [argminUpTo]
        exact Nat.zero_lt_one
      · exact Nat.lt_succ_of_lt (ih hm)

lemma argminUpTo_min (f : ℕ → ℝ) : ∀ n, ∀ t, t < n → f (argminUpTo f n) ≤ f t := by
  intro n
  induction n with
  | zero => intro t ht; exact absurd ht (Nat.not_lt_zero t)
  | succ m ih =>
    intro t ht
    rw [argminUpTo]
    split
    · rename_i h
      rcases Nat.lt_succ_iff_lt_or_eq.mp ht with h1 | h1
      · exact le_trans (le_of_lt h) (ih t h1)
      · subst h1; exact le_refl _
    · rename_i h
      rcases Nat.lt_succ_iff_lt_or_eq.mp ht with h1 | h1
      · exact ih t h1
      · subst h1; exact le_of_not_lt h

lemma argminUpTo_first (f : ℕ → ℝ) : ∀ n, ∀ t, t < argminUpTo f n →
    f (argminUpTo f n) < f t := by
  intro n
  induction n with
  | zero => intro t ht; rw [argminUpTo] at ht; exact absurd ht (Nat.not_lt_zero t)
  | succ m ih =>
    intro t ht
    rw [argminUpTo] at ht ⊢
    by_cases h : f m < f (argminUpTo f m)
    · rw [if_pos h] at ht ⊢
      exact lt_of_lt_of_le h (argminUpTo_min f m t ht)
    · rw [if_neg h] at ht ⊢
      exact ih t ht

/-- C2: on a nonempty grid, _find_winner applied to a vector of the
configured dimension D returns in-bounds coordinates (i, j) whose cell
weight vector has minimal Euclidean distance to v over all cells, and
every cell strictly earlier in row-major order (i ascending outer, j
ascending inner) has strictly greater distance, i.e. ties resolve to
the first cell in row-major scan order.  The method reads but never
writes the state, so in this embedding it is a pure function of s. -/
theorem C2_find_winner_correct (s : SOM) (v : List ℝ)
    (hH : 0 < s.H) (hW : 0 < s.W) (hlen : v.length = s.D) :
    ∃ i j, find_winner s v = some (i, j) ∧ i < s.H ∧ j < s.W ∧
      (∀ a b, a < s.H → b < s.W → cellDist s v i j ≤ cellDist s v a b) ∧
      (∀ a b, a < s.H → b < s.W → (a < i ∨ (a = i ∧ b < j)) →
        cellDist s v i j < cellDist s v a b) := by
  have hc : compatLen s.D v.length := Or.inl hlen.symm
  set f : ℕ → ℝ := fun u => cellDist s v (u / s.W) (u % s.W) with hf
  set t := argminUpTo f (s.H * s.W) with htdef
  have hfw : find_winner s v = some (t / s.W, t % s.W) := by
    rw [find_winner, if_pos ⟨hc, hH, hW⟩]
  have ht : t < s.H * s.W := argminUpTo_lt f _ (Nat.mul_pos hH hW)
  have hflat : ∀ a b, b < s.W → f (b + s.W * a) = cellDist s v a b := by
    intro a b hb
    have hdiv : (b + s.W * a) / s.W = a := by
      rw [Nat.add_mul_div_left _ _ hW, Nat.div_eq_of_lt hb, Nat.zero_add]
    have hmod : (b + s.W * a) % s.W = b := by
      rw [Nat.add_mul_mod_self_left, Nat.mod_eq_of_lt hb]
    rw [hf]
    simp only [hdiv, hmod]
  have hlt : ∀ a b, a < s.H → b < s.W → b + s.W * a < s.H * s.W := by
    intro a b ha hb
    calc b + s.W * a < s.W + s.W * a := by exact Nat.add_lt_add_right hb _
    _ = s.W * (a + 1) := by ring
    _ ≤ s.W * s.H := Nat.mul_le_mul_left _ (Nat.succ_le_of_lt ha)
    _ = s.H * s.W := Nat.mul_comm _ _
  refine ⟨t / s.W, t % s.W, hfw, ?_, Nat.mod_lt _ hW, ?_, ?_⟩
  · exact Nat.div_lt_of_lt_mul (by rw [Nat.mul_comm] at ht; exact ht)
  · intro a b ha hb
    have := argminUpTo_min f (s.H * s.W) (b + s.W * a) (hlt a b ha hb)
    rw [hflat a b hb] at this
    exact this
  · intro a b ha hb hearly
    have htval : t = t % s.W + s.W * (t / s.W) := by
      rw [Nat.add_comm]
      exact (Nat.div_add_mod t s.W).symm
    have hub : b + s.W * a < t := by
      rcases hearly with h1 | ⟨h1, h2⟩
      · have : b + s.W * a < s.W * (a + 1) := by
          calc b + s.W * a < s.W + s.W * a := Nat.add_lt_add_right hb _
          _ = s.W * (a + 1) := by ring
        have h3 : s.W * (a + 1) ≤ s.W * (t / s.W) :=
          Nat.mul_le_mul_left _ (Nat.succ_le_of_lt h1)
        calc b + s.W * a < s.W * (a + 1) := this
        _ ≤ s.W * (t / s.W) := h3
        _ ≤ t % s.W + s.W * (t / s.W) := Nat.le_add_left _ _
        _ = t := htval.symm
      · subst h1
        calc b + s.W * (t / s.W) < t % s.W + s.W * (t / s.W) :=
          Nat.add_lt_add_right h2 _
        _ = t := htval.symm
    have := argminUpTo_first f (s.H * s.W) (b + s.W * a) hub
    rw [hflat a b hb] at this
    exact this

/-! Helper lemmas about the state fields preserved by each operation. -/

lemma update_weights_fields {s s1 : SOM} {v : List ℝ} {wc : ℕ × ℕ}
    (h : update_weights s v wc = some s1) :
    s1.H = s.H ∧ s1.W = s.W ∧ s1.D = s.D ∧
      s1.learning_rate = s.learning_rate ∧ s1.radius = s.radius := by
  rw [update_weights] at h
  split at h
  · cases h
    exact ⟨rfl, rfl, rfl, rfl, rfl⟩
  · cases h

lemma trainStep_fields {s s1 : SOM} {v : List ℝ}
    (h : trainStep s v = some s1) :
    s1.H = s.H ∧ s1.W = s.W ∧ s1.D = s.D ∧
      s1.learning_rate = s.learning_rate ∧ s1.radius = s.radius := by
  rw [trainStep] at h
  cases hw : find_winner s v with
  | none => rw [hw] at h; cases h
  | some wc =>
    rw [hw] at h
    exact update_weights_fields h

lemma trainPass_fields : ∀ (data : List (List ℝ)) (s s1 : SOM),
    trainPass s data = some s1 →
    s1.H = s.H ∧ s1.W = s.W ∧ s1.D = s.D ∧
      s1.learning_rate = s.learning_rate ∧ s1.radius = s.radius := by
  intro data
  induction data with
  | nil =>
    intro s s1 h
    rw [trainPass] at h
    cases h
    exact ⟨rfl, rfl, rfl, rfl, rfl⟩
  | cons v rest ih =>
    intro s s1 h
    rw [trainPass] at h
    cases hs : trainStep s v with
    | none => rw [hs] at h; cases h
    | some s2 =>
      rw [hs] at h
      obtain ⟨h1, h2, h3, h4, h5⟩ := trainStep_fields hs
      obtain ⟨g1, g2, g3, g4, g5⟩ := ih s2 s1 h
      exact ⟨g1.trans h1, g2.trans h2, g3.trans h3, g4.trans h4, g5.trans h5⟩

lemma trainFoldFrom_none (lr0 r0 : ℝ) (data : List (List ℝ)) (E : ℕ) :
    ∀ l : List ℕ, trainFoldFrom lr0 r0 data E l none = none := by
  intro l
  induction l with
  | nil => rfl
  | cons e l ih =>
    rw [trainFoldFrom] at ih ⊢
    simpa using ih

lemma trainFoldFrom_cons (lr0 r0 : ℝ) (data : List (List ℝ)) (E e : ℕ)
    (l : List ℕ) (s : SOM) :
    trainFoldFrom lr0 r0 data E (e :: l) (some s) =
      trainFoldFrom lr0 r0 data E l (trainPass (setEpochParams lr0 r0 E e s) data) := by
  rfl

lemma trainFoldFrom_append (lr0 r0 : ℝ) (data : List (List ℝ)) (E : ℕ)
    (l1 l2 : List ℕ) (acc : Option SOM) :
    trainFoldFrom lr0 r0 data E (l1 ++ l2) acc =
      trainFoldFrom lr0 r0 data E l2 (trainFoldFrom lr0 r0 data E l1 acc) := by
  rw [trainFoldFrom, trainFoldFrom, trainFoldFrom, List.foldl_append]

/-- Unfolding of a successful _update_weights call. -/
lemma update_weights_eval (s : SOM) (v : List ℝ) (wc : ℕ × ℕ)
    (hcond : compatLen s.D v.length ∧
      (s.D = 0 ∨ (s.H = s.W ∧ (s.D = 1 → 1 ≤ v.length)))) :
    update_weights s v wc = some { s with weights := fun i j k =>
      if k < s.D then
        (s.weights i j k + s.learning_rate * influence s.radius wc i j *
          (v.getD (bIdx v.length k) 0 - s.weights i j k))
      else (s.weights i j k) } := by
  rw [update_weights, if_pos hcond]

/-! Concrete engines used as inputs of the concrete theorems below.
All of them start from an all-zero weight grid (a possible draw of the
random initializer). -/

/-- A square 2 x 2 engine with D = 1, learning rate 1/2, radius 1. -/
noncomputable def somA : SOM := ⟨2, 2, 1, 1/2, 1, fun _ _ _ => 0⟩

/-- A square 2 x 2 engine with D = 1, learning rate 1/2, radius 0. -/
noncomputable def somB : SOM := ⟨2, 2, 1, 1/2, 0, fun _ _ _ => 0⟩

/-- A 1 x 1 engine with D = 2, learning rate 1/2, radius 1. -/
noncomputable def somC : SOM := ⟨1, 1, 2, 1/2, 1, fun _ _ _ => 0⟩

/-- A non-square 1 x 2 engine with D = 1. -/
noncomputable def somD : SOM := ⟨1, 2, 1, 1/2, 1, fun _ _ _ => 0⟩

/-- A 1 x 1 engine with D = 1, learning rate 1/2, radius 1. -/
noncomputable def somE : SOM := ⟨1, 1, 1, 1/2, 1, fun _ _ _ => 0⟩

lemma one_lt_sqrt_two : (1:ℝ) < Real.sqrt 2 := by
  nlinarith [Real.sq_sqrt (by norm_num : (0:ℝ) ≤ 2), Real.sqrt_nonneg 2]

lemma dist_to_winner_A_winner : dist_to_winner (0, 1) 0 1 = Real.sqrt 2 := by
  rw [dist_to_winner]
  norm_num

lemma dist_to_winner_A_center : dist_to_winner (0, 1) 1 0 = 0 := by
  rw [dist_to_winner]
  norm_num

lemma influence_A_winner : influence 1 (0, 1) 0 1 = 0 := by
  rw [influence, dist_to_winner_A_winner, if_neg (not_le.mpr one_lt_sqrt_two), mul_zero]

lemma influence_A_center : influence 1 (0, 1) 1 0 = 1 := by
  rw [influence, dist_to_winner_A_center]
  norm_num [Real.exp_zero]

/-- C1: refuted on the code.  With the 2 x 2 engine somA (radius 1,
learning rate 1/2, all-zero weights), input v = [1] and winner (0, 1),
the winner cell (0, 1) itself has claimed distance
d = sqrt((0-0)^2 + (1-1)^2) = 0 <= radius, so the claim requires its
weight to become w + lr * exp(-d / (2 r^2)) * (v - w) = 1/2; but
_update_weights builds the distance array with np.meshgrid(x, y),
whose (W, H) layout centers the neighborhood on the transposed
coordinate (1, 0), so the cell (0, 1) is masked out and keeps weight
0. -/
theorem C1_update_misses_winner :
    Real.sqrt (((0:ℝ) - 0) ^ 2 + ((1:ℝ) - 1) ^ 2) ≤ somA.radius ∧
    somA.weights 0 1 0 + somA.learning_rate *
      Real.exp (-Real.sqrt (((0:ℝ) - 0) ^ 2 + ((1:ℝ) - 1) ^ 2) /
        (2 * somA.radius ^ 2)) *
      ([(1:ℝ)].getD 0 0 - somA.weights 0 1 0) = 1/2 ∧
    ∃ s1, update_weights somA [(1:ℝ)] (0, 1) = some s1 ∧
      s1.weights 0 1 0 = 0 ∧ (0:ℝ) ≠ 1/2 := by
  refine ⟨by norm_num [somA], by norm_num [somA, Real.exp_zero], ?_⟩
  refine ⟨_, update_weights_eval somA [(1:ℝ)] (0, 1)
    ⟨Or.inl rfl, Or.inr ⟨rfl, fun _ => le_refl 1⟩⟩, ?_, by norm_num⟩
  simp [somA, influence_A_winner, bIdx]

/-- C3: refuted on the code.  With somA, input [1] and winner (0, 1),
the cell (1, 0) has claimed distance sqrt((1-0)^2 + (0-1)^2) = sqrt 2,
strictly greater than the radius 1, so the claim requires it to be
unchanged; the code moves it from 0 to 1/2, because the transposed
meshgrid distance array gives that cell distance 0. -/
theorem C3_frame_violated :
    somA.radius < Real.sqrt (((1:ℝ) - 0) ^ 2 + ((0:ℝ) - 1) ^ 2) ∧
    ∃ s1, update_weights somA [(1:ℝ)] (0, 1) = some s1 ∧
      somA.weights 1 0 0 = 0 ∧ s1.weights 1 0 0 = 1/2 ∧ ((1:ℝ)/2 ≠ 0) := by
  constructor
  · have : ((1:ℝ) - 0) ^ 2 + ((0:ℝ) - 1) ^ 2 = 2 := by norm_num
    rw [this]
    simpa [somA] using one_lt_sqrt_two
  refine ⟨_, update_weights_eval somA [(1:ℝ)] (0, 1)
    ⟨Or.inl rfl, Or.inr ⟨rfl, fun _ => le_refl 1⟩⟩, by norm_num [somA], ?_, by norm_num⟩
  simp [somA, influence_A_center, bIdx]

/-- C4: refuted on the code.  With somA, v = [1], winner (0, 1): the
learning rate 1/2 lies in (0, 1] and v differs from the winner weight
vector [0], yet after _update_weights the Euclidean distance from the
winner cell weight vector to v is exactly what it was before (1, not
strictly less), because the transposed neighborhood leaves the winner
cell untouched. -/
theorem C4_winner_not_pulled :
    (0 < somA.learning_rate ∧ somA.learning_rate ≤ 1) ∧
    (1:ℝ) ≠ somA.weights 0 1 0 ∧
    ∃ s1, update_weights somA [(1:ℝ)] (0, 1) = some s1 ∧
      cellDist s1 [(1:ℝ)] 0 1 = cellDist somA [(1:ℝ)] 0 1 ∧
      ¬ cellDist s1 [(1:ℝ)] 0 1 < cellDist somA [(1:ℝ)] 0 1 := by
  refine ⟨by norm_num [somA], by norm_num [somA], ?_⟩
  refine ⟨_, update_weights_eval somA [(1:ℝ)] (0, 1)
    ⟨Or.inl rfl, Or.inr ⟨rfl, fun _ => le_refl 1⟩⟩, ?_⟩
  have hpost : cellDist { somA with weights := fun i j k =>
      if k < somA.D then
        (somA.weights i j k + somA.learning_rate * influence somA.radius (0, 1) i j *
          ([(1:ℝ)].getD (bIdx [(1:ℝ)].length k) 0 - somA.weights i j k))
      else (somA.weights i j k) } [(1:ℝ)] 0 1 = cellDist somA [(1:ℝ)] 0 1 := by
    rw [cellDist, cellDist]
    simp [bLen, bIdx, somA, influence_A_winner]
  exact ⟨hpost, by rw [hpost]; exact lt_irrefl _⟩

lemma dist_to_winner_B_winner : dist_to_winner (0, 0) 0 0 = 0 := by
  rw [dist_to_winner]
  norm_num

lemma dist_to_winner_B_other : dist_to_winner (0, 0) 0 1 = 1 := by
  rw [dist_to_winner]
  norm_num

/-- C5: refuted on the code.  With somB (radius 0) and winner (0, 0),
the code does not special-case radius = 0: at the winner cell the
influence expression divides (-0.0) by 2 * 0^2 = 0.0, which is NaN
under IEEE arithmetic, and exp(NaN) = NaN is then written into every
weight component of that cell (numpy only emits a RuntimeWarning); the
claim instead requires influence exactly 1 and finite weights.  Cells
at positive grid distance do stay unchanged (exp(-inf) = 0 times
mask 0). -/
theorem C5_zero_radius_nan :
    somB.radius = 0 ∧
    updatedWeightIEEE somB [(1:ℝ)] (0, 0) 0 0 0 = none ∧
    updatedWeightIEEE somB [(1:ℝ)] (0, 0) 0 1 0 = some (somB.weights 0 1 0) := by
  refine ⟨rfl, ?_, ?_⟩
  · rw [updatedWeightIEEE, influenceMaskedIEEE, influenceIEEE]
    have hr : somB.radius = 0 := rfl
    rw [hr, dist_to_winner_B_winner]
    norm_num
  · rw [updatedWeightIEEE, influenceMaskedIEEE, influenceIEEE]
    have hr : somB.radius = 0 := rfl
    rw [hr, dist_to_winner_B_other]
    norm_num

/-! Success and failure conditions of the individual operations. -/

lemma find_winner_none_of_incompat {s : SOM} {v : List ℝ}
    (h : ¬ compatLen s.D v.length) : find_winner s v = none := by
  rw [find_winner, if_neg]
  exact fun hc => h hc.1

lemma find_winner_some_of {s : SOM} {v : List ℝ}
    (hc : compatLen s.D v.length) (hH : 0 < s.H) (hW : 0 < s.W) :
    ∃ w, find_winner s v = some w :=
  ⟨_, by rw [find_winner, if_pos ⟨hc, hH, hW⟩]⟩

lemma update_weights_none_of_nonsquare {s : SOM} {v : List ℝ} {wc : ℕ × ℕ}
    (hne : s.H ≠ s.W) (hD : 0 < s.D) : update_weights s v wc = none := by
  rw [update_weights, if_neg]
  rintro ⟨-, h | ⟨hsq, -⟩⟩
  · omega
  · exact hne hsq

lemma update_weights_some_of {s : SOM} {v : List ℝ} (wc : ℕ × ℕ)
    (hc : compatLen s.D v.length)
    (hcond : s.D = 0 ∨ (s.H = s.W ∧ (s.D = 1 → 1 ≤ v.length))) :
    ∃ s1, update_weights s v wc = some s1 :=
  ⟨_, update_weights_eval s v wc ⟨hc, hcond⟩⟩

lemma trainPass_some_of : ∀ (data : List (List ℝ)) (s : SOM), 0 < s.H → s.H = s.W →
    (∀ v ∈ data, v.length = s.D) → ∃ s1, trainPass s data = some s1 := by
  intro data
  induction data with
  | nil => intro s _ _ _; exact ⟨s, rfl⟩
  | cons v rest ih =>
    intro s hH hsq hlen
    have hv : v.length = s.D := hlen v (List.mem_cons_self v rest)
    have hc : compatLen s.D v.length := Or.inl hv.symm
    obtain ⟨wc, hwc⟩ := find_winner_some_of hc hH (hsq ▸ hH)
    obtain ⟨s1, hs1⟩ := update_weights_some_of wc hc
      (Or.inr ⟨hsq, fun hD1 => by rw [hv, hD1]⟩)
    obtain ⟨h1, h2, h3, -, -⟩ := update_weights_fields hs1
    obtain ⟨s2, hs2⟩ := ih s1 (h1 ▸ hH) (by rw [h1, h2]; exact hsq)
      (fun u hu => by rw [h3]; exact hlen u (List.mem_cons_of_mem v hu))
    refine ⟨s2, ?_⟩
    rw [trainPass, trainStep, hwc]
    simpa [hs1] using hs2

lemma trainPass_none_of_bad : ∀ (data : List (List ℝ)) (s : SOM),
    (∃ v ∈ data, ¬ compatLen s.D v.length) → trainPass s data = none := by
  intro data
  induction data with
  | nil => rintro s ⟨v, hv, -⟩; exact absurd hv (List.not_mem_nil v)
  | cons v rest ih =>
    rintro s ⟨u, hu, hbad⟩
    rw [trainPass]
    rcases List.mem_cons.mp hu with rfl | hu
    · rw [trainStep, find_winner_none_of_incompat hbad]
      rfl
    · cases hs : trainStep s v with
      | none => rfl
      | some s1 =>
        obtain ⟨-, -, h3, -, -⟩ := trainStep_fields hs
        simpa using ih s1 ⟨u, hu, by rw [h3]; exact hbad⟩

/-- C9: on a non-square grid (H different from W, with at least one
weight component per cell), the broadcast of the (W, H)-shaped
meshgrid influence array against the (H, W)-shaped weight slices makes
_update_weights raise for every input vector and winner coordinate; a
raising numpy in-place update writes nothing, so the grid is
unchanged (modelled by returning none, keeping the pre-state with the
caller); consequently train fails on any non-empty dataset once
epochs >= 1. -/
theorem C9_nonsquare_raises (s : SOM) (hne : s.H ≠ s.W) (hD : 0 < s.D) :
    (∀ (v : List ℝ) (wc : ℕ × ℕ), update_weights s v wc = none) ∧
    (∀ (data : List (List ℝ)) (E : ℕ), data ≠ [] → 1 ≤ E →
      train s data E = none) := by
  refine ⟨fun v wc => update_weights_none_of_nonsquare hne hD, ?_⟩
  intro data E hdata hE
  obtain ⟨m, rfl⟩ : ∃ m, E = m + 1 := ⟨E - 1, by omega⟩
  rw [train, List.range_succ_eq_map, trainFoldFrom_cons]
  have hfirst : trainPass (setEpochParams s.learning_rate s.radius (m + 1) 0 s) data
      = none := by
    obtain ⟨v, rest, rfl⟩ : ∃ v rest, data = v :: rest := by
      cases data with
      | nil => exact absurd rfl hdata
      | cons v rest => exact ⟨v, rest, rfl⟩
    rw [trainPass]
    have hstep : trainStep (setEpochParams s.learning_rate s.radius (m + 1) 0 s) v
        = none := by
      rw [trainStep]
      cases hfw : find_winner (setEpochParams s.learning_rate s.radius (m + 1) 0 s) v with
      | none => rfl
      | some wc =>
        have hnone : update_weights (setEpochParams s.learning_rate s.radius (m + 1) 0 s)
            v wc = none := update_weights_none_of_nonsquare hne hD
        simp [hnone]
    rw [hstep]
    rfl
  rw [hfirst]
  exact trainFoldFrom_none _ _ _ _ _

/-- C9 witness: the 1 x 2 engine somD concretely raises in
_update_weights and in train. -/
theorem C9_nonsquare_raises_w :
    update_weights somD [(0:ℝ)] (0, 0) = none ∧
    train somD [[(0:ℝ)]] 1 = none := by
  have h := C9_nonsquare_raises somD (by decide) (by decide)
  exact ⟨h.1 [(0:ℝ)] (0, 0), h.2 [[(0:ℝ)]] 1 (by simp) (le_refl 1)⟩

/-- Training with an empty dataset only rewrites the learning rate and
radius fields; the weight grid is untouched. -/
lemma trainFoldFrom_empty_data (lr0 r0 : ℝ) (E : ℕ) :
    ∀ (l : List ℕ) (cur : SOM), ∃ s1,
      trainFoldFrom lr0 r0 [] E l (some cur) = some s1 ∧ s1.weights = cur.weights := by
  intro l
  induction l with
  | nil => intro cur; exact ⟨cur, rfl, rfl⟩
  | cons e l ih =>
    intro cur
    rw [trainFoldFrom_cons]
    have hpass : trainPass (setEpochParams lr0 r0 E e cur) [] =
        some (setEpochParams lr0 r0 E e cur) := rfl
    rw [hpass]
    obtain ⟨s1, h1, h2⟩ := ih (setEpochParams lr0 r0 E e cur)
    exact ⟨s1, h1, h2⟩

/-- C8: train(data, 0) is a no-op returning the state unchanged for
any data, and train([], E) succeeds for any epoch count and leaves
every weight component exactly equal to its post-construction value
(the epoch loop only rewrites the learning rate and radius fields). -/
theorem C8_zero_epochs_empty_data_noop (s : SOM) :
    (∀ data : List (List ℝ), train s data 0 = some s) ∧
    (∀ E : ℕ, ∃ s1, train s [] E = some s1 ∧
      ∀ i j k, s1.weights i j k = s.weights i j k) := by
  constructor
  · intro data
    rfl
  · intro E
    obtain ⟨s1, h1, h2⟩ := trainFoldFrom_empty_data s.learning_rate s.radius E
      (List.range E) s
    exact ⟨s1, h1, fun i j k => by rw [h2]⟩

/-- C10: when train(data, E) with E >= 1 returns normally, the stored
learning_rate and radius fields hold the last epoch values
lr0 * (1/E) and r0 * (1/E); the constructor values are not restored. -/
theorem C10_final_params (s s1 : SOM) (data : List (List ℝ)) (E : ℕ)
    (hE : 1 ≤ E) (h : train s data E = some s1) :
    s1.learning_rate = s.learning_rate * (1 / (E : ℝ)) ∧
    s1.radius = s.radius * (1 / (E : ℝ)) := by
  obtain ⟨m, rfl⟩ : ∃ m, E = m + 1 := ⟨E - 1, by omega⟩
  rw [train, List.range_succ, trainFoldFrom_append] at h
  cases hmid : trainFoldFrom s.learning_rate s.radius data (m + 1)
      (List.range m) (some s) with
  | none =>
    rw [hmid, trainFoldFrom_none] at h
    cases h
  | some mid =>
    rw [hmid, trainFoldFrom_cons] at h
    have h2 : trainPass (setEpochParams s.learning_rate s.radius (m + 1) m mid) data
        = some s1 := by
      cases hp : trainPass (setEpochParams s.learning_rate s.radius (m + 1) m mid) data with
      | none => rw [hp, trainFoldFrom_none] at h; cases h
      | some x =>
        rw [hp] at h
        have hx : x = s1 := Option.some.inj h
        rw [hx]
    obtain ⟨-, -, -, h4, h5⟩ := trainPass_fields _ _ _ h2
    have hfac : 1 - (m : ℝ) / ((m + 1 : ℕ) : ℝ) = 1 / ((m + 1 : ℕ) : ℝ) := by
      have hne : ((m + 1 : ℕ) : ℝ) ≠ 0 := by positivity
      field_simp
    constructor
    · rw [h4]
      show s.learning_rate * (1 - (m : ℝ) / ((m + 1 : ℕ) : ℝ)) = _
      rw [hfac]
    · rw [h5]
      show s.radius * (1 - (m : ℝ) / ((m + 1 : ℕ) : ℝ)) = _
      rw [hfac]

/-- C10 witness: training the 1 x 1 engine somE on an empty dataset
for one epoch stores learning rate 1/2 * (1/1) and radius 1 * (1/1). -/
theorem C10_final_params_w :
    ∃ s1, train somE [] 1 = some s1 ∧
      s1.learning_rate = somE.learning_rate * (1 / ((1 : ℕ) : ℝ)) ∧
      s1.radius = somE.radius * (1 / ((1 : ℕ) : ℝ)) := by
  have htr : train somE [] 1 = some (setEpochParams somE.learning_rate somE.radius 1 0 somE) := rfl
  exact ⟨_, htr, C10_final_params somE _ [] 1 (le_refl 1) htr⟩

/-- C6: the epoch loop of train.  For a state with nonnegative initial
learning rate lr0 and radius r0 and an epoch count E >= 1:
train is exactly the fold applying, once per epoch e in order, the
parameter assignments followed by one pass over the data; the
parameters set for epoch e are exactly lr0 * (1 - e/E) and
r0 * (1 - e/E); the weight updates inside a pass never change the
learning rate or radius, so the value set at the top of the epoch
applies to every sample of the epoch; the two sequences are
monotonically non-increasing in e; the decay factor 1 - e/E stays
strictly positive for every executed epoch e < E, the last executed
epoch using factor 1/E; and for E = 4 and lr0 = 0.5 the learning-rate
sequence is 0.5, 0.375, 0.25, 0.125. -/
theorem C6_decay_schedule (s : SOM) (E : ℕ) (hE : 1 ≤ E)
    (hlr : 0 ≤ s.learning_rate) (hr : 0 ≤ s.radius) :
    (∀ data, train s data E =
      trainFoldFrom s.learning_rate s.radius data E (List.range E) (some s)) ∧
    (∀ e (cur : SOM),
      (setEpochParams s.learning_rate s.radius E e cur).learning_rate
          = s.learning_rate * (1 - (e : ℝ) / (E : ℝ)) ∧
      (setEpochParams s.learning_rate s.radius E e cur).radius
          = s.radius * (1 - (e : ℝ) / (E : ℝ))) ∧
    (∀ (cur : SOM) v s1, trainStep cur v = some s1 →
      s1.learning_rate = cur.learning_rate ∧ s1.radius = cur.radius) ∧
    (∀ e e1 (cur cur1 : SOM), e ≤ e1 →
      (setEpochParams s.learning_rate s.radius E e1 cur1).learning_rate ≤
        (setEpochParams s.learning_rate s.radius E e cur).learning_rate ∧
      (setEpochParams s.learning_rate s.radius E e1 cur1).radius ≤
        (setEpochParams s.learning_rate s.radius E e cur).radius) ∧
    (∀ e, e < E → (0 : ℝ) < 1 - (e : ℝ) / (E : ℝ)) ∧
    (1 - ((E - 1 : ℕ) : ℝ) / (E : ℝ) = 1 / (E : ℝ)) ∧
    (E = 4 → s.learning_rate = 0.5 → ∀ cur : SOM,
      (setEpochParams s.learning_rate s.radius 4 0 cur).learning_rate = 0.5 ∧
      (setEpochParams s.learning_rate s.radius 4 1 cur).learning_rate = 0.375 ∧
      (setEpochParams s.learning_rate s.radius 4 2 cur).learning_rate = 0.25 ∧
      (setEpochParams s.learning_rate s.radius 4 3 cur).learning_rate = 0.125) := by
  have hE0 : (0 : ℝ) < (E : ℝ) := by exact_mod_cast hE
  refine ⟨fun data => rfl, fun e cur => ⟨rfl, rfl⟩,
    fun cur v s1 h => (trainStep_fields h).2.2.2, ?_, ?_, ?_, ?_⟩
  · intro e e1 cur cur1 he
    have hdiv : (e : ℝ) / (E : ℝ) ≤ (e1 : ℝ) / (E : ℝ) := by
      apply div_le_div_of_nonneg_right ?_ hE0.le
      exact_mod_cast he
    constructor
    · exact mul_le_mul_of_nonneg_left (by linarith) hlr
    · exact mul_le_mul_of_nonneg_left (by linarith) hr
  · intro e he
    have : (e : ℝ) / (E : ℝ) < 1 := by
      rw [div_lt_one hE0]
      exact_mod_cast he
    linarith
  · have h1 : ((E - 1 : ℕ) : ℝ) = (E : ℝ) - 1 := by
      rw [Nat.cast_sub hE, Nat.cast_one]
    rw [h1]
    field_simp
  · intro h4 hhalf cur
    subst h4
    rw [hhalf]
    refine ⟨?_, ?_, ?_, ?_⟩ <;>
      simp only [setEpochParams] <;> norm_num

/-- C6 witness: the schedule theorem applied to the concrete 1 x 1
engine somE with E = 4 epochs gives epoch-1 learning rate
(1/2) * (1 - 1/4). -/
theorem C6_decay_schedule_w :
    (setEpochParams somE.learning_rate somE.radius 4 1 somE).learning_rate
      = somE.learning_rate * (1 - ((1 : ℕ) : ℝ) / ((4 : ℕ) : ℝ)) :=
  ((C6_decay_schedule somE 4 (by norm_num) (by norm_num [somE])
    (by norm_num [somE])).2.1 1 somE).1

/-- C2 witness: the theorem instantiated on the concrete 1 x 1 engine
somE and the vector [0]. -/
theorem C2_find_winner_correct_w :
    ∃ i j, find_winner somE [(0:ℝ)] = some (i, j) ∧ i < somE.H ∧ j < somE.W ∧
      (∀ a b, a < somE.H → b < somE.W →
        cellDist somE [(0:ℝ)] i j ≤ cellDist somE [(0:ℝ)] a b) ∧
      (∀ a b, a < somE.H → b < somE.W → (a < i ∨ (a = i ∧ b < j)) →
        cellDist somE [(0:ℝ)] i j < cellDist somE [(0:ℝ)] a b) :=
  C2_find_winner_correct somE [(0:ℝ)] (by decide) (by decide) rfl

lemma argminUpTo_one (f : ℕ → ℝ) : argminUpTo f 1 = 0 := by
  rw [argminUpTo]
  split <;> rfl

/-- C7: refuted as stated.  The engine somC is configured with
input dimension D = 2, and the vector [5] has length 1, different
from D; yet _find_winner does not raise: numpy broadcasts the
length-1 vector against the (1, 1, 2) weight array and the call
returns the coordinate (0, 0) normally, and _update_weights succeeds
on the same input as well. -/
theorem C7_length_one_not_rejected :
    [(5:ℝ)].length ≠ somC.D ∧
    find_winner somC [(5:ℝ)] = some (0, 0) ∧
    ∃ s1, update_weights somC [(5:ℝ)] (0, 0) = some s1 := by
  refine ⟨by decide, ?_,
    update_weights_some_of (0, 0) (Or.inr (Or.inr rfl))
      (Or.inr ⟨rfl, fun _ => le_refl 1⟩)⟩
  rw [find_winner, if_pos ⟨Or.inr (Or.inr rfl), by decide, by decide⟩]
  simp [somC, argminUpTo_one]

/-- Successful epoch fold when every data vector has the configured
dimension and the grid is square and nonempty. -/
lemma trainFoldFrom_some_of (lr0 r0 : ℝ) (data : List (List ℝ)) (E : ℕ) :
    ∀ (l : List ℕ) (cur : SOM), 0 < cur.H → cur.H = cur.W →
      (∀ v ∈ data, v.length = cur.D) →
      ∃ s1, trainFoldFrom lr0 r0 data E l (some cur) = some s1 := by
  intro l
  induction l with
  | nil => intro cur _ _ _; exact ⟨cur, rfl⟩
  | cons e l ih =>
    intro cur hH hsq hlen
    rw [trainFoldFrom_cons]
    obtain ⟨mid, hmid⟩ :=
      trainPass_some_of data (setEpochParams lr0 r0 E e cur) hH hsq hlen
    rw [hmid]
    obtain ⟨h1, h2, h3, -, -⟩ := trainPass_fields data _ mid hmid
    exact ih mid (by rw [h1]; exact hH) (by rw [h1, h2]; exact hsq)
      (fun v hv => by rw [h3]; exact hlen v hv)

/-- C7 amended: on a square nonempty grid (H = W, H >= 1, D >= 1),
_find_winner, _update_weights and train raise a shape error exactly
for vectors whose length is numpy-broadcast-incompatible with D
(length different from both D and 1, with D itself not 1); every
vector of length D is processed without error, and so is a
broadcast-compatible vector of length 1 even though its length
differs from D.  (On non-square grids _update_weights raises even for
correct-length vectors; see the C9 theorem.) -/
theorem C7_shape_errors_amended (s : SOM) (hH : 0 < s.H) (hsq : s.H = s.W)
    (_hD : 0 < s.D) :
    (∀ v : List ℝ, ¬ compatLen s.D v.length →
      find_winner s v = none ∧ ∀ wc, update_weights s v wc = none) ∧
    (∀ v : List ℝ, v.length = s.D →
      (∃ w, find_winner s v = some w) ∧
        ∀ wc, ∃ s1, update_weights s v wc = some s1) ∧
    (∀ v : List ℝ, v.length = 1 →
      (∃ w, find_winner s v = some w) ∧
        ∀ wc, ∃ s1, update_weights s v wc = some s1) ∧
    (∀ (data : List (List ℝ)) (E : ℕ), (∀ v ∈ data, v.length = s.D) →
      ∃ s1, train s data E = some s1) ∧
    (∀ (data : List (List ℝ)) (E : ℕ), 1 ≤ E →
      (∃ v ∈ data, ¬ compatLen s.D v.length) → train s data E = none) := by
  refine ⟨?_, ?_, ?_, ?_, ?_⟩
  · intro v hv
    refine ⟨find_winner_none_of_incompat hv, fun wc => ?_⟩
    rw [update_weights, if_neg (fun hc => hv hc.1)]
  · intro v hv
    have hc : compatLen s.D v.length := Or.inl hv.symm
    exact ⟨find_winner_some_of hc hH (hsq ▸ hH),
      fun wc => update_weights_some_of wc hc
        (Or.inr ⟨hsq, fun h1 => by rw [hv, h1]⟩)⟩
  · intro v hv
    have hc : compatLen s.D v.length := Or.inr (Or.inr hv)
    exact ⟨find_winner_some_of hc hH (hsq ▸ hH),
      fun wc => update_weights_some_of wc hc
        (Or.inr ⟨hsq, fun _ => by rw [hv]⟩)⟩
  · intro data E hlen
    rw [train]
    exact trainFoldFrom_some_of s.learning_rate s.radius data E (List.range E) s
      hH hsq hlen
  · intro data E hE hbad
    obtain ⟨m, rfl⟩ : ∃ m, E = m + 1 := ⟨E - 1, by omega⟩
    rw [train, List.range_succ_eq_map, trainFoldFrom_cons]
    have hfirst : trainPass (setEpochParams s.learning_rate s.radius (m + 1) 0 s)
        data = none := trainPass_none_of_bad data _ hbad
    rw [hfirst]
    exact trainFoldFrom_none _ _ _ _ _

/-- C7 amended witness: on the square engine somC (D = 2), a vector of
incompatible length 3 makes the winner lookup raise, while training on
a correct-length vector succeeds. -/
theorem C7_shape_errors_amended_w :
    find_winner somC [(1:ℝ), 2, 3] = none ∧
    ∃ s1, train somC [[(0:ℝ), 0]] 1 = some s1 := by
  have h := C7_shape_errors_amended somC (by decide) rfl (by decide)
  exact ⟨(h.1 [(1:ℝ), 2, 3] (by decide)).1,
    h.2.2.2.1 [[(0:ℝ), 0]] 1 (by simp [somC])⟩

/-- Consistency of the IEEE refinement with the real-valued influence
transcription: off the radius = 0 singularity the two agree. -/
lemma influenceMaskedIEEE_eq (r : ℝ) (hr : r ≠ 0) (wc : ℕ × ℕ) (k l : ℕ) :
    influenceMaskedIEEE r wc k l = some (influence r wc k l) := by
  have h2 : 2 * r ^ 2 ≠ 0 := by positivity
  rw [influenceMaskedIEEE, influenceIEEE, if_neg h2]
  simp [influence]

/-- Consistency of the IEEE per-component update with the weight
written by update_weights: off the radius = 0 singularity they agree. -/
lemma updatedWeightIEEE_eq (s : SOM) (hr : s.radius ≠ 0) (v : List ℝ)
    (wc : ℕ × ℕ) (i j k : ℕ) :
    updatedWeightIEEE s v wc i j k = some (s.weights i j k +
      s.learning_rate * influence s.radius wc i j *
        (v.getD (bIdx v.length k) 0 - s.weights i j k)) := by
  rw [updatedWeightIEEE, influenceMaskedIEEE_eq s.radius hr]
  rfl
